import Mathlib

/-!
Verification of the Elementary Transform Sequence (ETS) kinematics library
(`roboticstoolbox/robot/ets.py`).

The embedding models the `ETS` class and its methods `fkine`, `jacob0`,
`hessian0`, `manipulability` and `jacobm`.  Joint coordinates are lists of
reals, homogeneous transforms are 4×4 real matrices.  Python index accesses
that can raise `IndexError`, and matrix inversions that can raise
`LinAlgError`, are modelled with `Option`: `none` is an uncaught error.

The `ET` (elementary transform) class is imported by `ets.py` but its source
is not part of the repository snapshot; it is modelled from the spec (§4.1):
an elementary transform is one of six axes, either fixed (carrying a constant
parameter) or variable (a joint, evaluated at a supplied coordinate), and
evaluating it with a missing required parameter, or with a parameter supplied
to a fixed transform, is an invalid-argument error.
-/

set_option maxHeartbeats 1000000

namespace RTB

open scoped Matrix

/-- Homogeneous 4×4 rigid-transform matrices. -/
abbrev Mat4 := Matrix (Fin 4) (Fin 4) ℝ

/-- Modelled from the spec: the six principal axes of an elementary transform
(`axis` in §3; `ET.py` is not in the source snapshot). -/
inductive Axis
  | Tx | Ty | Tz | Rx | Ry | Rz
deriving DecidableEq

/-- Modelled from the spec: an elementary transform is `fixed` (constant
scalar parameter) or `variable` (driven by a joint coordinate); `joint`
models the variable kind, which `ets.py` tests as `_type == 1`. -/
inductive ETKind
  | const (p : ℝ)
  | joint

/-- Modelled from the spec: one elementary transform (axis plus kind). -/
structure ET where
  axis : Axis
  kind : ETKind

/-- `true` iff the element is a variable (joint) transform;
models the `_type == 1` test of `ets.py`. -/
def ET.isJoint (e : ET) : Bool :=
  match e.kind with
  | .joint => true
  | .const _ => false

/-- Modelled from the spec: the standard homogeneous transform for a
translation by `v` along, or a rotation by `v` radians about, the given
principal axis (§4.1). -/
noncomputable def axisT : Axis → ℝ → Mat4
  | .Tx, v => !![1, 0, 0, v; 0, 1, 0, 0; 0, 0, 1, 0; 0, 0, 0, 1]
  | .Ty, v => !![1, 0, 0, 0; 0, 1, 0, v; 0, 0, 1, 0; 0, 0, 0, 1]
  | .Tz, v => !![1, 0, 0, 0; 0, 1, 0, 0; 0, 0, 1, v; 0, 0, 0, 1]
  | .Rx, v => !![1, 0, 0, 0;
                 0, Real.cos v, -Real.sin v, 0;
                 0, Real.sin v, Real.cos v, 0;
                 0, 0, 0, 1]
  | .Ry, v => !![Real.cos v, 0, Real.sin v, 0;
                 0, 1, 0, 0;
                 -Real.sin v, 0, Real.cos v, 0;
                 0, 0, 0, 1]
  | .Rz, v => !![Real.cos v, -Real.sin v, 0, 0;
                 Real.sin v, Real.cos v, 0, 0;
                 0, 0, 1, 0;
                 0, 0, 0, 1]

/-- Modelled from the spec: `ET.T(...)`, evaluation of an elementary
transform (§4.1).  A fixed transform takes no argument and uses its stored
constant; a variable transform requires the joint coordinate.  A missing
required parameter, or a parameter supplied to a fixed transform, is an
invalid-argument error (`none`). -/
noncomputable def ET.T (e : ET) : Option ℝ → Option Mat4
  | some p =>
    match e.kind with
    | .joint => some (axisT e.axis p)
    | .const _ => none
  | none =>
    match e.kind with
    | .joint => none
    | .const c => some (axisT e.axis c)

/-- Total evaluation of an element used by the spec-side definitions:
a joint is evaluated at the supplied coordinate, a fixed element at its
stored constant (the argument is ignored). -/
noncomputable def ET.evalT (e : ET) (v : ℝ) : Mat4 :=
  match e.kind with
  | .joint => axisT e.axis v
  | .const c => axisT e.axis c

/-- `true` iff the element is acceptable to `jacob0`'s matching condition:
either it is not a joint, or it is a revolute-about-z joint. -/
def ET.okRz (e : ET) : Bool :=
  !e.isJoint || decide (e.axis = Axis.Rz)

/-- The `ETS` object of `ets.py`: the element list `_ets`, the joint-position
list `_q_idx`, metadata, base and tool offsets, and the stored joint-vector
field `_q` (set to zeros at construction and never read by any method). -/
structure ETS where
  ets : List ET
  q_idx : List ℕ
  name : String
  manuf : String
  base : Mat4
  tool : Mat4
  q_stored : List ℝ

/-- `self.M`: number of elements. -/
def ETS.M (r : ETS) : ℕ := r.ets.length

/-- `self.n`: number of joints. -/
def ETS.n (r : ETS) : ℕ := r.q_idx.length

/-- Number of variable (joint) elements in a list. -/
def numJoints : List ET → ℕ
  | [] => 0
  | e :: rest => (if e.isJoint then 1 else 0) + numJoints rest

/-- Positions (absolute indices, starting at `s`) of the joints in a list. -/
def jointPositionsFrom : List ET → ℕ → List ℕ
  | [], _ => []
  | e :: rest, s =>
    if e.isJoint then s :: jointPositionsFrom rest (s + 1)
    else jointPositionsFrom rest (s + 1)

/-- Positions of the joints of a chain, in element order. -/
def jointPositions (l : List ET) : List ℕ := jointPositionsFrom l 0

/-- The chain invariant of the spec (§3): `joint_index` lists exactly the
positions of the variable elements, in order. -/
def ETS.WellFormed (r : ETS) : Prop := r.q_idx = jointPositions r.ets

instance (r : ETS) : Decidable r.WellFormed := by
  unfold ETS.WellFormed; infer_instance

/-- The loop of `ets.py`'s `fkine`: walk the elements with a running product
`trans` and joint counter `j`; a joint element reads `q[j]` (an out-of-range
read is an `IndexError`, modelled as `none`) and is evaluated there, any
other element is evaluated with no argument. -/
noncomputable def fkineLoop : List ET → List ℝ → ℕ → Mat4 → Option Mat4
  | [], _, _, tcur => some tcur
  | e :: rest, q, j, tcur =>
    if e.isJoint then
      match q[j]? with
      | none => none
      | some qj =>
        match e.T (some qj) with
        | none => none
        | some T => fkineLoop rest q (j + 1) (tcur * T)
    else
      match e.T none with
      | none => none
      | some T => fkineLoop rest q j (tcur * T)

/-- `ETS.fkine(q)`: forward kinematics.  The running product starts at the
identity and is right-multiplied by `tool` at the end.  (The `base` offset is
not applied by the source.) -/
noncomputable def ETS.fkine (r : ETS) (q : List ℝ) : Option Mat4 :=
  (fkineLoop r.ets q 0 1).map (fun t => t * r.tool)

/-- Spec-side product (§4.2): walk the elements in order, evaluating each
variable element at the next unused entry of `q` and each fixed element with
no parameter, multiplying on the right. -/
noncomputable def chainProd : List ET → List ℝ → Mat4
  | [], _ => 1
  | e :: rest, qs =>
    if e.isJoint then e.evalT qs.headI * chainProd rest qs.tail
    else e.evalT 0 * chainProd rest qs

lemma numJoints_append (l₁ l₂ : List ET) :
    numJoints (l₁ ++ l₂) = numJoints l₁ + numJoints l₂ := by
  induction l₁ with
  | nil => simp [numJoints]
  | cons e rest ih => simp [numJoints, ih]; ring

lemma jointPositionsFrom_length (l : List ET) (s : ℕ) :
    (jointPositionsFrom l s).length = numJoints l := by
  induction l generalizing s with
  | nil => rfl
  | cons e rest ih =>
    by_cases h : e.isJoint
    · simp [jointPositionsFrom, numJoints, h, ih]; omega
    · simp [jointPositionsFrom, numJoints, h, ih]

lemma jointPositionsFrom_ge (l : List ET) (s : ℕ) :
    ∀ x ∈ jointPositionsFrom l s, s ≤ x := by
  induction l generalizing s with
  | nil => intro x hx; simp [jointPositionsFrom] at hx
  | cons e rest ih =>
    intro x hx
    by_cases h : e.isJoint
    · simp only [jointPositionsFrom, h, if_pos, List.mem_cons] at hx
      rcases hx with rfl | hx
      · exact le_refl x
      · exact Nat.le_of_succ_le (ih (s + 1) x hx)
    · simp only [jointPositionsFrom, h, Bool.false_eq_true, if_false] at hx
      exact Nat.le_of_succ_le (ih (s + 1) x hx)

lemma numJoints_pos_of_mem {e : ET} {l : List ET} (hm : e ∈ l)
    (hj : e.isJoint = true) : 1 ≤ numJoints l := by
  induction l with
  | nil => simp at hm
  | cons a rest ih =>
    rcases List.mem_cons.mp hm with rfl | hm
    · simp [numJoints, hj]
    · have := ih hm
      unfold numJoints
      omega

/-- The `fkine` loop computes the spec-side chain product of the remaining
elements against the unconsumed suffix of `q`. -/
lemma fkineLoop_eq (l : List ET) (q : List ℝ) (j : ℕ) (A : Mat4)
    (h : j + numJoints l ≤ q.length) :
    fkineLoop l q j A = some (A * chainProd l (q.drop j)) := by
  induction l generalizing j A with
  | nil => simp [fkineLoop, chainProd]
  | cons e rest ih =>
    by_cases he : e.isJoint
    · have hj : j < q.length := by
        unfold numJoints at h; rw [he] at h; simp at h; omega
      have hget : q[j]? = some q[j] := List.getElem?_eq_getElem hj
      have hdropc : q.drop j = q[j] :: q.drop (j + 1) :=
        List.drop_eq_getElem_cons hj
      have hT : e.T (some q[j]) = some (axisT e.axis q[j]) := by
        unfold ET.T
        unfold ET.isJoint at he
        match hk : e.kind with
        | .joint => rfl
        | .const c => rw [hk] at he; simp at he
      have hrec := ih (j + 1) (A * axisT e.axis q[j])
        (by unfold numJoints at h; rw [he] at h; simp at h; omega)
      have hev : e.evalT q[j] = axisT e.axis q[j] := by
        unfold ET.evalT
        unfold ET.isJoint at he
        match hk : e.kind with
        | .joint => rfl
        | .const c => rw [hk] at he; simp at he
      simp only [fkineLoop, he, if_pos, hget, hT, hrec]
      rw [hdropc]
      simp only [chainProd, he, if_pos, List.headI_cons, List.tail_cons, hev,
        mul_assoc]
    · obtain ⟨c, hk⟩ : ∃ c, e.kind = ETKind.const c := by
        unfold ET.isJoint at he
        match hk : e.kind with
        | .joint => rw [hk] at he; simp at he
        | .const c => exact ⟨c, rfl⟩
      have hT : e.T none = some (axisT e.axis c) := by
        unfold ET.T; rw [hk]
      have hrec := ih j (A * axisT e.axis c)
        (by unfold numJoints at h; rw [if_neg (by simp [he])] at h; omega)
      have hev : e.evalT 0 = axisT e.axis c := by
        unfold ET.evalT; rw [hk]
      simp only [fkineLoop, he, Bool.false_eq_true, if_false, hT, hrec]
      simp [chainProd, he, hev, mul_assoc]

lemma wellFormed_numJoints {r : ETS} (hWF : r.WellFormed) :
    r.n = numJoints r.ets := by
  unfold ETS.n ETS.WellFormed at *
  rw [hWF, jointPositions, jointPositionsFrom_length]

/-- `fkine` at a well-formed chain with `q` of length `n` succeeds and
returns the ordered chain product right-multiplied by `tool`. -/
lemma fkine_eq (r : ETS) (q : List ℝ) (hWF : r.WellFormed)
    (hq : q.length = r.n) :
    r.fkine q = some (chainProd r.ets q * r.tool) := by
  unfold ETS.fkine
  rw [fkineLoop_eq r.ets q 0 1 (by rw [hq, wellFormed_numJoints hWF]; omega)]
  simp

/-- The Jacobian column written by `jacob0` at joint `j`: rows 0–2 are
`o·x − n·y` and rows 3–5 are `a`, where `n, o, a` are the first three columns
of `U` and `x, y` the first two translation components of `Tu`. -/
noncomputable def jcol (U Tu : Mat4) (a : Fin 6) : ℝ :=
  if h : a.val < 3 then
    U ⟨a.val, by omega⟩ 1 * Tu 0 3 - U ⟨a.val, by omega⟩ 0 * Tu 1 3
  else
    U ⟨a.val - 3, by have := a.isLt; omega⟩ 2

/-- The loop of `ets.py`'s `jacob0`, processing the element with absolute
index `i`, running transform `U`, joint counter `j` and matrix `J` (columns
beyond the written ones stay zero).  Every iteration reads `q_idx[j]`
without a bounds check (`none` on an out-of-range read).  An element whose
index differs from `q_idx[j]` is evaluated with no argument (an error for a
variable element); at an element with `i = q_idx[j]` whose axis is
rotate-about-z, `U` is extended by the element at `q[j]`, column `j` is
written from `U` and `Tu = U⁻¹ · T`, and `j` advances; any other matching
element is skipped entirely. -/
noncomputable def jacobLoop (q_idx : List ℕ) (q : List ℝ) (T : Mat4) :
    List ET → ℕ → Mat4 → ℕ → (Fin 6 → ℕ → ℝ) → Option (Fin 6 → ℕ → ℝ)
  | [], _, _, _, J => some J
  | e :: rest, i, U, j, J =>
    match q_idx[j]? with
    | none => none
    | some p =>
      if i ≠ p then
        match e.T none with
        | none => none
        | some Te => jacobLoop q_idx q T rest (i + 1) (U * Te) j J
      else
        if e.axis = Axis.Rz then
          match q[j]? with
          | none => none
          | some qj =>
            match e.T (some qj) with
            | none => none
            | some Te =>
              jacobLoop q_idx q T rest (i + 1) (U * Te) (j + 1)
                (fun a b =>
                  if b = j then jcol (U * Te) ((U * Te)⁻¹ * T) a else J a b)
        else
          jacobLoop q_idx q T rest (i + 1) U j J

/-- `ETS.jacob0(q)`: first computes the total pose `T = fkine(q)`, then runs
the column-building loop from the identity with `J` initialised to zeros. -/
noncomputable def ETS.jacob0 (r : ETS) (q : List ℝ) :
    Option (Fin 6 → ℕ → ℝ) :=
  (r.fkine q).bind fun T =>
    jacobLoop r.q_idx q T r.ets 0 1 0 (fun _ _ => 0)

/-- Spec-side single left-to-right pass building the Jacobian columns (§4.3):
a fixed element right-multiplies `U` by its parameterless evaluation; a joint
consumes the next entry of `qs`, extends `U`, and writes column `j` from `U`
and `Tu = U⁻¹ · T` (`T` being the forward-kinematics pose). -/
noncomputable def specJacobCols (T : Mat4) :
    List ET → List ℝ → Mat4 → ℕ → (Fin 6 → ℕ → ℝ) → (Fin 6 → ℕ → ℝ)
  | [], _, _, _, J => J
  | e :: rest, qs, U, j, J =>
    if e.isJoint then
      specJacobCols T rest qs.tail (U * e.evalT qs.headI) (j + 1)
        (fun a b =>
          if b = j then
            jcol (U * e.evalT qs.headI) ((U * e.evalT qs.headI)⁻¹ * T) a
          else J a b)
    else
      specJacobCols T rest qs (U * e.evalT 0) j J

/-- Spec-side Jacobian of a chain (§4.3): the column pass run over the whole
element list from the identity, against the forward-kinematics pose. -/
noncomputable def ETS.specJacobian (r : ETS) (q : List ℝ) :
    Fin 6 → ℕ → ℝ :=
  specJacobCols (chainProd r.ets q * r.tool) r.ets q 1 0 (fun _ _ => 0)

lemma ET.T_some_eq {e : ET} (he : e.isJoint = true) (v : ℝ) :
    e.T (some v) = some (axisT e.axis v) := by
  unfold ET.T
  unfold ET.isJoint at he
  match hk : e.kind with
  | .joint => rfl
  | .const c => rw [hk] at he; simp at he

lemma kind_const_of_not_joint {e : ET} (he : ¬ e.isJoint = true) :
    ∃ c, e.kind = ETKind.const c := by
  unfold ET.isJoint at he
  match hk : e.kind with
  | .joint => rw [hk] at he; simp at he
  | .const c => exact ⟨c, rfl⟩

lemma ET.T_none_eq {e : ET} {c : ℝ} (hk : e.kind = ETKind.const c) :
    e.T none = some (axisT e.axis c) := by
  unfold ET.T; rw [hk]

lemma ET.evalT_joint {e : ET} (he : e.isJoint = true) (v : ℝ) :
    e.evalT v = axisT e.axis v := by
  unfold ET.evalT
  unfold ET.isJoint at he
  match hk : e.kind with
  | .joint => rfl
  | .const c => rw [hk] at he; simp at he

lemma ET.evalT_const {e : ET} {c : ℝ} (hk : e.kind = ETKind.const c) (v : ℝ) :
    e.evalT v = axisT e.axis c := by
  unfold ET.evalT; rw [hk]

lemma axis_Rz_of_okRz {e : ET} (he : e.isJoint = true)
    (hok : e.okRz = true) : e.axis = Axis.Rz := by
  unfold ET.okRz at hok
  rw [he] at hok
  simpa using hok

lemma getLast?_tail_of_cons {e : ET} {rest : List ET}
    (h : ∀ x, (e :: rest).getLast? = some x → x.isJoint = true) :
    ∀ x, rest.getLast? = some x → x.isJoint = true := by
  intro x hx
  apply h
  cases rest with
  | nil => simp at hx
  | cons r rs => rw [List.getLast?_cons_cons]; exact hx

lemma numJoints_pos_of_getLast? {rest : List ET} {el : ET}
    (hel : rest.getLast? = some el) (hj : el.isJoint = true) :
    1 ≤ numJoints rest := by
  obtain ⟨ys, rfl⟩ := List.getLast?_eq_some_iff.mp hel
  exact numJoints_pos_of_mem (by simp) hj

lemma getElem?_of_drop_cons {l : List ℕ} {j p : ℕ} {tl : List ℕ}
    (h : l.drop j = p :: tl) : l[j]? = some p := by
  have h0 := List.getElem?_drop l j 0
  rw [h] at h0
  simpa using h0.symm

lemma numJoints_cons (e : ET) (rest : List ET) :
    numJoints (e :: rest) = (if e.isJoint then 1 else 0) + numJoints rest :=
  rfl

/-- On a suffix whose joints are all revolute-about-z and whose last element
is a joint, the `jacob0` loop computes exactly the spec-side column pass. -/
lemma jacobLoop_eq_spec (q_idx : List ℕ) (q : List ℝ) (T : Mat4) :
    ∀ (suf : List ET) (i j : ℕ) (U : Mat4) (J : Fin 6 → ℕ → ℝ),
    q_idx.drop j = jointPositionsFrom suf i →
    suf.all ET.okRz = true →
    (∀ e, suf.getLast? = some e → e.isJoint = true) →
    j + numJoints suf ≤ q.length →
    jacobLoop q_idx q T suf i U j J =
      some (specJacobCols T suf (q.drop j) U j J) := by
  intro suf
  induction suf with
  | nil => intro i j U J _ _ _ _; rfl
  | cons e rest ih =>
    intro i j U J hdrop hall hlast hq
    rw [List.all_cons, Bool.and_eq_true] at hall
    obtain ⟨hok, hall'⟩ := hall
    by_cases he : e.isJoint
    · have haxis : e.axis = Axis.Rz := axis_Rz_of_okRz he hok
      have hdropc : q_idx.drop j = i :: jointPositionsFrom rest (i + 1) := by
        rw [hdrop]; simp [jointPositionsFrom, he]
      have hqi : q_idx[j]? = some i := getElem?_of_drop_cons hdropc
      have hjlt : j < q.length := by
        rw [numJoints_cons, if_pos he] at hq; omega
      have hgq : q[j]? = some q[j] := List.getElem?_eq_getElem hjlt
      have hqdrop : q.drop j = q[j] :: q.drop (j + 1) :=
        List.drop_eq_getElem_cons hjlt
      have hTe : e.T (some q[j]) = some (axisT e.axis q[j]) :=
        ET.T_some_eq he _
      have hrec := ih (i + 1) (j + 1) (U * axisT e.axis q[j])
        (fun a b =>
          if b = j then
            jcol (U * axisT e.axis q[j]) ((U * axisT e.axis q[j])⁻¹ * T) a
          else J a b)
        (by rw [← List.tail_drop, hdropc]; rfl)
        hall'
        (getLast?_tail_of_cons hlast)
        (by rw [numJoints_cons, if_pos he] at hq; omega)
      simp only [jacobLoop, hqi]
      rw [if_neg (by simp), if_pos haxis]
      simp only [hgq, hTe]
      rw [hrec, hqdrop]
      simp only [specJacobCols, he, if_pos, List.headI_cons, List.tail_cons,
        ET.evalT_joint he]
    · obtain ⟨c, hk⟩ := kind_const_of_not_joint he
      have hdropr : q_idx.drop j = jointPositionsFrom rest (i + 1) := by
        rw [hdrop]; simp [jointPositionsFrom, he]
      have hrne : rest ≠ [] := by
        intro hnil
        subst hnil
        exact he (hlast e (by simp))
      obtain ⟨el, hel⟩ : ∃ el, rest.getLast? = some el := by
        have := List.getLast?_isSome (l := rest) |>.mpr hrne
        exact Option.isSome_iff_exists.mp this
      have helj : el.isJoint = true := getLast?_tail_of_cons hlast el hel
      have hnj : 1 ≤ numJoints rest := numJoints_pos_of_getLast? hel helj
      obtain ⟨p, tl, hcons⟩ : ∃ p tl,
          jointPositionsFrom rest (i + 1) = p :: tl := by
        have hlen : (jointPositionsFrom rest (i + 1)).length = numJoints rest :=
          jointPositionsFrom_length rest (i + 1)
        match hm : jointPositionsFrom rest (i + 1) with
        | [] => rw [hm] at hlen; simp at hlen; omega
        | p :: tl => exact ⟨p, tl, rfl⟩
      have hqi : q_idx[j]? = some p :=
        getElem?_of_drop_cons (hdropr.trans hcons)
      have hip : i ≠ p := by
        have : i + 1 ≤ p :=
          jointPositionsFrom_ge rest (i + 1) p (hcons ▸ List.mem_cons_self ..)
        omega
      have hTe : e.T none = some (axisT e.axis c) := ET.T_none_eq hk
      have hrec := ih (i + 1) j (U * axisT e.axis c) J
        hdropr
        hall'
        (getLast?_tail_of_cons hlast)
        (by rw [numJoints_cons, if_neg (by simp [he])] at hq; omega)
      simp only [jacobLoop, hqi]
      rw [if_pos hip]
      simp only [hTe]
      rw [hrec]
      simp only [specJacobCols, he, Bool.false_eq_true, if_false,
        ET.evalT_const hk]

lemma getLast?_tail_gen {P : ET → Prop} {e : ET} {rest : List ET}
    (h : ∀ x, (e :: rest).getLast? = some x → P x) :
    ∀ x, rest.getLast? = some x → P x := by
  intro x hx
  apply h
  cases rest with
  | nil => simp at hx
  | cons r rs => rw [List.getLast?_cons_cons]; exact hx

lemma of_okRz_false {e : ET} (h : e.okRz = false) :
    e.isJoint = true ∧ ¬(e.axis = Axis.Rz) := by
  unfold ET.okRz at h
  rw [Bool.or_eq_false_iff] at h
  obtain ⟨h1, h2⟩ := h
  refine ⟨by simpa using h1, by simpa using h2⟩

/-- Any suffix that still has joints but whose joints are all
revolute-about-z, once past its last joint, makes the loop read `q_idx`
out of bounds: if the suffix's joints are all Rz and its last element is not
a joint, the loop returns `none`. -/
lemma jacobLoop_oob (q_idx : List ℕ) (q : List ℝ) (T : Mat4) :
    ∀ (suf : List ET) (i j : ℕ) (U : Mat4) (J : Fin 6 → ℕ → ℝ),
    q_idx.drop j = jointPositionsFrom suf i →
    suf.all ET.okRz = true →
    suf ≠ [] →
    (∀ e, suf.getLast? = some e → e.isJoint = false) →
    jacobLoop q_idx q T suf i U j J = none := by
  intro suf
  induction suf with
  | nil => intro i j U J _ _ hne _; exact absurd rfl hne
  | cons e rest ih =>
    intro i j U J hdrop hall _ hlast
    rw [List.all_cons, Bool.and_eq_true] at hall
    obtain ⟨hok, hall'⟩ := hall
    by_cases he : e.isJoint
    · have hrne : rest ≠ [] := by
        intro hnil
        subst hnil
        have := hlast e (by simp)
        rw [he] at this
        simp at this
      have haxis : e.axis = Axis.Rz := axis_Rz_of_okRz he hok
      have hdropc : q_idx.drop j = i :: jointPositionsFrom rest (i + 1) := by
        rw [hdrop]; simp [jointPositionsFrom, he]
      have hqi : q_idx[j]? = some i := getElem?_of_drop_cons hdropc
      simp only [jacobLoop, hqi]
      rw [if_neg (by simp), if_pos haxis]
      cases hgq : q[j]? with
      | none => rfl
      | some qj =>
        dsimp only
        rw [ET.T_some_eq he qj]
        exact ih (i + 1) (j + 1) (U * axisT e.axis qj) _
          (by rw [← List.tail_drop, hdropc]; rfl)
          hall' hrne (getLast?_tail_gen hlast)
    · obtain ⟨c, hk⟩ := kind_const_of_not_joint he
      have hdropr : q_idx.drop j = jointPositionsFrom rest (i + 1) := by
        rw [hdrop]; simp [jointPositionsFrom, he]
      cases hm : jointPositionsFrom rest (i + 1) with
      | nil =>
        have hnil : q_idx.drop j = [] := hdropr.trans hm
        have hqi : q_idx[j]? = none :=
          List.getElem?_eq_none (by
            have := List.drop_eq_nil_iff.mp hnil
            omega)
        simp [jacobLoop, hqi]
      | cons p tl =>
        have hrne : rest ≠ [] := by
          intro hnil
          subst hnil
          simp [jointPositionsFrom] at hm
        have hqi : q_idx[j]? = some p :=
          getElem?_of_drop_cons (hdropr.trans hm)
        have hip : i ≠ p := by
          have : i + 1 ≤ p :=
            jointPositionsFrom_ge rest (i + 1) p (hm ▸ List.mem_cons_self ..)
          omega
        simp only [jacobLoop, hqi]
        rw [if_pos hip, ET.T_none_eq hk]
        exact ih (i + 1) j (U * axisT e.axis c) J hdropr hall' hrne
          (getLast?_tail_gen hlast)

/-- Once the joint counter is stuck (`q_idx[j]` names a position strictly
before every remaining element) and the remaining elements are all fixed,
the loop finishes without touching `J`. -/
lemma jacobLoop_stuck (q_idx : List ℕ) (q : List ℝ) (T : Mat4) :
    ∀ (tail : List ET) (i j p : ℕ) (U : Mat4) (J : Fin 6 → ℕ → ℝ),
    tail.all (fun e => !e.isJoint) = true →
    q_idx[j]? = some p → p < i →
    jacobLoop q_idx q T tail i U j J = some J := by
  intro tail
  induction tail with
  | nil => intro i j p U J _ _ _; rfl
  | cons e rest ih =>
    intro i j p U J hall hqi hpi
    rw [List.all_cons, Bool.and_eq_true] at hall
    obtain ⟨hnj, hall'⟩ := hall
    have he : ¬ e.isJoint = true := by simpa using hnj
    obtain ⟨c, hk⟩ := kind_const_of_not_joint he
    simp only [jacobLoop, hqi]
    rw [if_pos (by omega : i ≠ p), ET.T_none_eq hk]
    exact ih (i + 1) j p (U * axisT e.axis c) J hall' hqi (by omega)

/-- Walking a prefix of acceptable elements (fixed or revolute-about-z
joints) followed by a non-Rz joint followed by fixed elements only: the loop
completes without error, and every column at or past the non-Rz joint's
joint index is left at zero. -/
lemma jacobLoop_prefix_zero (q_idx : List ℕ) (q : List ℝ) (T : Mat4) :
    ∀ (good : List ET) (bad : ET) (tail : List ET) (i j : ℕ) (U : Mat4)
      (J : Fin 6 → ℕ → ℝ),
    good.all ET.okRz = true →
    ET.okRz bad = false →
    tail.all (fun e => !e.isJoint) = true →
    q_idx.drop j = jointPositionsFrom (good ++ bad :: tail) i →
    j + numJoints (good ++ bad :: tail) ≤ q.length →
    (∀ a b, j ≤ b → J a b = 0) →
    ∃ Jf, jacobLoop q_idx q T (good ++ bad :: tail) i U j J = some Jf ∧
      ∀ a b, j + numJoints good ≤ b → Jf a b = 0 := by
  intro good
  induction good with
  | nil =>
    intro bad tail i j U J _ hbad htail hdrop _ hJ
    obtain ⟨hbj, hbx⟩ := of_okRz_false hbad
    have hdropc : q_idx.drop j = i :: jointPositionsFrom tail (i + 1) := by
      rw [hdrop]; simp [jointPositionsFrom, hbj]
    have hqi : q_idx[j]? = some i := getElem?_of_drop_cons hdropc
    refine ⟨J, ?_, fun a b hb => hJ a b (by simpa [numJoints] using hb)⟩
    simp only [List.nil_append, jacobLoop, hqi]
    rw [if_neg (by simp), if_neg hbx]
    exact jacobLoop_stuck q_idx q T tail (i + 1) j i U J htail hqi (by omega)
  | cons e g' ih =>
    intro bad tail i j U J hall hbad htail hdrop hq hJ
    rw [List.all_cons, Bool.and_eq_true] at hall
    obtain ⟨hok, hall'⟩ := hall
    rw [List.cons_append] at hdrop hq ⊢
    by_cases he : e.isJoint
    · have haxis : e.axis = Axis.Rz := axis_Rz_of_okRz he hok
      have hdropc :
          q_idx.drop j = i :: jointPositionsFrom (g' ++ bad :: tail) (i + 1) := by
        rw [hdrop]; simp [jointPositionsFrom, he]
      have hqi : q_idx[j]? = some i := getElem?_of_drop_cons hdropc
      have hjlt : j < q.length := by
        rw [numJoints_cons, if_pos he] at hq; omega
      have hgq : q[j]? = some q[j] := List.getElem?_eq_getElem hjlt
      have hTe : e.T (some q[j]) = some (axisT e.axis q[j]) :=
        ET.T_some_eq he _
      obtain ⟨Jf, h1, h2⟩ := ih bad tail (i + 1) (j + 1)
        (U * axisT e.axis q[j])
        (fun a b =>
          if b = j then
            jcol (U * axisT e.axis q[j]) ((U * axisT e.axis q[j])⁻¹ * T) a
          else J a b)
        hall' hbad htail
        (by rw [← List.tail_drop, hdropc]; rfl)
        (by rw [numJoints_cons, if_pos he] at hq; omega)
        (by
          intro a b hb
          dsimp only
          rw [if_neg (by omega)]
          exact hJ a b (by omega))
      refine ⟨Jf, ?_, fun a b hb => h2 a b (by
        rw [numJoints_cons, if_pos he] at hb; omega)⟩
      simp only [jacobLoop, hqi]
      rw [if_neg (by simp), if_pos haxis]
      simp only [hgq, hTe]
      exact h1
    · obtain ⟨c, hk⟩ := kind_const_of_not_joint he
      have hdropr :
          q_idx.drop j = jointPositionsFrom (g' ++ bad :: tail) (i + 1) := by
        rw [hdrop]; simp [jointPositionsFrom, he]
      obtain ⟨hbj, _⟩ := of_okRz_false hbad
      have hnj : 1 ≤ numJoints (g' ++ bad :: tail) := by
        rw [numJoints_append, numJoints_cons, if_pos hbj]
        omega
      obtain ⟨p, tl, hcons⟩ : ∃ p tl,
          jointPositionsFrom (g' ++ bad :: tail) (i + 1) = p :: tl := by
        have hlen := jointPositionsFrom_length (g' ++ bad :: tail) (i + 1)
        match hm : jointPositionsFrom (g' ++ bad :: tail) (i + 1) with
        | [] => rw [hm] at hlen; simp at hlen; omega
        | p :: tl => exact ⟨p, tl, rfl⟩
      have hqi : q_idx[j]? = some p :=
        getElem?_of_drop_cons (hdropr.trans hcons)
      have hip : i ≠ p := by
        have : i + 1 ≤ p :=
          jointPositionsFrom_ge _ (i + 1) p (hcons ▸ List.mem_cons_self ..)
        omega
      have hTe : e.T none = some (axisT e.axis c) := ET.T_none_eq hk
      obtain ⟨Jf, h1, h2⟩ := ih bad tail (i + 1) j (U * axisT e.axis c) J
        hall' hbad htail hdropr
        (by rw [numJoints_cons, if_neg (by simp [he])] at hq; omega)
        hJ
      refine ⟨Jf, ?_, fun a b hb => h2 a b (by
        rw [numJoints_cons, if_neg (by simp [he])] at hb; omega)⟩
      simp only [jacobLoop, hqi]
      rw [if_pos hip]
      simp only [hTe]
      exact h1

/-- Concrete chain: one revolute-about-z joint, identity base and tool. -/
def rA : ETS :=
  ⟨[⟨Axis.Rz, ETKind.joint⟩], [0], "noname", "", 1, 1, [0]⟩

/-- Concrete chain with no elements and a non-identity base offset. -/
noncomputable def rB : ETS :=
  ⟨[], [], "noname", "", axisT Axis.Tx 1, 1, []⟩

/-- C1: for every well-formed chain and every joint vector `q` of length `n`,
`fkine` returns the ordered product of the element transforms — each variable
element evaluated at the next unused entry of `q`, each fixed element with no
parameter — right-multiplied at the end by the tool offset. -/
theorem fkine_ordered_product (r : ETS) (q : List ℝ) (hWF : r.WellFormed)
    (hq : q.length = r.n) :
    r.fkine q = some (chainProd r.ets q * r.tool) :=
  fkine_eq r q hWF hq

theorem fkine_ordered_product_witness :
    rA.WellFormed ∧ [(0 : ℝ)].length = rA.n ∧
      rA.fkine [0] = some (chainProd rA.ets [0] * rA.tool) :=
  ⟨by decide, by decide, fkine_ordered_product rA [0] (by decide) (by decide)⟩

/-- Concrete chain: a revolute-about-z joint followed by a trailing fixed
translation (an element after the last joint position). -/
def rC : ETS :=
  ⟨[⟨Axis.Rz, ETKind.joint⟩, ⟨Axis.Tx, ETKind.const 1⟩], [0],
    "noname", "", 1, 1, [0]⟩

/-- Concrete chain: a prismatic (translate-x) joint followed by a trailing
fixed translation. -/
def rE : ETS :=
  ⟨[⟨Axis.Tx, ETKind.joint⟩, ⟨Axis.Tz, ETKind.const 1⟩], [0],
    "noname", "", 1, 1, [0]⟩

/-- Concrete chain: a prismatic (translate-z) joint followed by a fixed
translation. -/
def rF : ETS :=
  ⟨[⟨Axis.Tz, ETKind.joint⟩, ⟨Axis.Ty, ETKind.const 2⟩], [0],
    "noname", "", 1, 1, [0]⟩

/-- Concrete chain: a prismatic (translate-z) joint followed by a
revolute-about-z joint. -/
def rG : ETS :=
  ⟨[⟨Axis.Tz, ETKind.joint⟩, ⟨Axis.Rz, ETKind.joint⟩], [0, 1],
    "noname", "", 1, 1, [0, 0]⟩

/-- C2 (amended): on a well-formed chain whose joints are all
revolute-about-z and whose last element is a joint, `jacob0` with a
length-`n` joint vector returns exactly the matrix built by the single
left-to-right pass of the spec: `U` starts at the identity, fixed elements
right-multiply `U` by their parameterless evaluation, and at joint `j`, after
`U := U · Rz(q[j])`, with `Tu = U⁻¹·T` (`T` the forward-kinematics pose),
column `j`'s linear part is `ô·x − n̂·y` and its angular part is `â`.
(Chains with elements after the last joint instead fail; see the
counterexample and C10.) -/
theorem jacob0_eq_spec (r : ETS) (q : List ℝ) (hWF : r.WellFormed)
    (hRz : r.ets.all ET.okRz = true)
    (hlast : r.ets.getLast?.map ET.isJoint = some true)
    (hq : q.length = r.n) :
    r.jacob0 q = some (r.specJacobian q) := by
  unfold ETS.jacob0 ETS.specJacobian
  rw [fkine_eq r q hWF hq]
  show jacobLoop r.q_idx q (chainProd r.ets q * r.tool) r.ets 0 1 0
      (fun _ _ => 0) = _
  have h0 : r.q_idx.drop 0 = jointPositionsFrom r.ets 0 := by
    simpa [jointPositions] using hWF
  have hlast' : ∀ e, r.ets.getLast? = some e → e.isJoint = true := by
    intro e he
    rw [he] at hlast
    simpa using hlast
  have hq' : 0 + numJoints r.ets ≤ q.length := by
    rw [hq, wellFormed_numJoints hWF]
    omega
  rw [jacobLoop_eq_spec r.q_idx q (chainProd r.ets q * r.tool) r.ets 0 0 1
    (fun _ _ => 0) h0 hRz hlast' hq']
  rw [List.drop_zero]

theorem jacob0_eq_spec_witness :
    (rA.WellFormed ∧ rA.ets.all ET.okRz = true ∧
      rA.ets.getLast?.map ET.isJoint = some true ∧ [(0 : ℝ)].length = rA.n) ∧
    rA.jacob0 [0] = some (rA.specJacobian [0]) :=
  ⟨⟨by decide, by decide, by decide, by decide⟩,
    jacob0_eq_spec rA [0] (by decide) (by decide) (by decide) (by decide)⟩

/-- C2 counterexample: `rC` is well formed and `q = [0]` has length `n`, yet
`jacob0` does not return a matrix at all — the trailing fixed element makes
the loop read `q_idx[1]` out of bounds. -/
theorem jacob0_not_total_counterexample :
    rC.WellFormed ∧ [(0 : ℝ)].length = rC.n ∧ rC.jacob0 [0] = none :=
  ⟨by decide, by decide, rfl⟩

/-- C10 (amended): on every well-formed chain whose joints are all
revolute-about-z and whose element sequence ends in a non-joint (which is
exactly the all-Rz chains having an element after the last joint position,
including zero-joint chains with at least one element), `jacob0`'s unchecked
`q_idx[j]` lookup goes out of bounds and the total embedding returns
`none`, for every `q`. -/
theorem jacob0_oob_after_last_joint (r : ETS) (q : List ℝ)
    (hWF : r.WellFormed) (hRz : r.ets.all ET.okRz = true)
    (hlast : r.ets.getLast?.map ET.isJoint = some false) :
    r.jacob0 q = none := by
  unfold ETS.jacob0
  cases hf : r.fkine q with
  | none => rfl
  | some T =>
    show jacobLoop r.q_idx q T r.ets 0 1 0 (fun _ _ => 0) = none
    have hne : r.ets ≠ [] := by
      intro hnil
      rw [hnil] at hlast
      simp at hlast
    have hlast' : ∀ e, r.ets.getLast? = some e → e.isJoint = false := by
      intro e he
      rw [he] at hlast
      simpa using hlast
    exact jacobLoop_oob r.q_idx q T r.ets 0 0 1 (fun _ _ => 0)
      (by simpa [jointPositions] using hWF) hRz hne hlast'

theorem jacob0_oob_after_last_joint_witness :
    (rC.WellFormed ∧ rC.ets.all ET.okRz = true ∧
      rC.ets.getLast?.map ET.isJoint = some false) ∧
    rC.jacob0 [0] = none :=
  ⟨⟨by decide, by decide, by decide⟩,
    jacob0_oob_after_last_joint rC [0] (by decide) (by decide) (by decide)⟩

/-- C10 counterexample: `rE` has an element positioned after its last joint,
yet `jacob0` returns a matrix rather than hitting the out-of-bounds read —
the prismatic joint freezes the joint counter, so `q_idx[j]` stays in
bounds. -/
theorem jacob0_oob_counterexample :
    rE.WellFormed ∧ rE.ets.getLast?.map ET.isJoint = some false ∧
      (rE.jacob0 [0]).isSome = true :=
  ⟨by decide, by decide, rfl⟩

/-- C8 (amended): on a well-formed chain with a non-revolute-about-z joint at
element position `p0` (so joint index `numJoints (take p0)`), all elements
before `p0` acceptable (fixed or Rz joints) and all elements after `p0`
fixed, `jacob0` reports no error, and every column at or past that joint's
index — in particular the column of every joint whose variable transform is
not a rotation about z — is left at its zero initialisation.  (If a variable
element follows position `p0`, `jacob0` instead fails: see the
counterexample.) -/
theorem jacob0_prismatic_zero_column (r : ETS) (q : List ℝ) (p0 : ℕ)
    (hWF : r.WellFormed) (hq : q.length = r.n)
    (hbad : (r.ets[p0]?).map ET.okRz = some false)
    (hpre : (r.ets.take p0).all ET.okRz = true)
    (htail : (r.ets.drop (p0 + 1)).all (fun e => !e.isJoint) = true) :
    ∃ Jm, r.jacob0 q = some Jm ∧
      ∀ a b, numJoints (r.ets.take p0) ≤ b → Jm a b = 0 := by
  have hp0 : p0 < r.ets.length := by
    by_contra h
    rw [List.getElem?_eq_none (le_of_not_lt h)] at hbad
    simp at hbad
  have hsplit : r.ets = r.ets.take p0 ++ r.ets[p0] :: r.ets.drop (p0 + 1) := by
    conv_lhs => rw [← List.take_append_drop p0 r.ets]
    rw [List.drop_eq_getElem_cons hp0]
  have hbadv : ET.okRz r.ets[p0] = false := by
    rw [List.getElem?_eq_getElem hp0] at hbad
    simpa using hbad
  have h0 : r.q_idx.drop 0 =
      jointPositionsFrom (r.ets.take p0 ++ r.ets[p0] :: r.ets.drop (p0 + 1)) 0 := by
    rw [← hsplit]
    simpa [jointPositions] using hWF
  have hqlen : 0 + numJoints (r.ets.take p0 ++ r.ets[p0] :: r.ets.drop (p0 + 1)) ≤
      q.length := by
    rw [← hsplit, hq, wellFormed_numJoints hWF]
    omega
  obtain ⟨Jf, h1, h2⟩ := jacobLoop_prefix_zero r.q_idx q
    (chainProd r.ets q * r.tool) (r.ets.take p0) r.ets[p0]
    (r.ets.drop (p0 + 1)) 0 0 1 (fun _ _ => 0) hpre hbadv htail h0 hqlen
    (fun _ _ _ => rfl)
  rw [← hsplit] at h1
  refine ⟨Jf, ?_, fun a b hb => h2 a b (by omega)⟩
  unfold ETS.jacob0
  rw [fkine_eq r q hWF hq]
  exact h1

theorem jacob0_prismatic_zero_column_witness :
    (rF.WellFormed ∧ [(0 : ℝ)].length = rF.n ∧
      (rF.ets[0]?).map ET.okRz = some false ∧
      (rF.ets.take 0).all ET.okRz = true ∧
      (rF.ets.drop 1).all (fun e => !e.isJoint) = true) ∧
    (∃ Jm, rF.jacob0 [0] = some Jm ∧
      ∀ a b, numJoints (rF.ets.take 0) ≤ b → Jm a b = 0) :=
  ⟨⟨by decide, by decide, by decide, by decide, by decide⟩,
    jacob0_prismatic_zero_column rF [0] 0 (by decide) (by decide) (by decide)
      (by decide) (by decide)⟩

/-- C8 counterexample: `rG` contains a variable translate-type (prismatic)
joint at a joint position, yet `jacob0` does not run to completion without
error — the revolute joint after the stuck prismatic one is evaluated with
no argument, an invalid-argument error, so `jacob0` returns `none`. -/
theorem jacob0_prismatic_error_counterexample :
    rG.WellFormed ∧ [(0 : ℝ), 0].length = rG.n ∧ rG.jacob0 [0, 0] = none :=
  ⟨by decide, by decide, rfl⟩

/-- C6: the source's `fkine` does not left-multiply by the base offset.  On
the chain `rB` (no elements, base = a translation along x) the code returns
the identity-times-tool product, which differs from the specified
`base · (chain product) · tool`. -/
theorem fkine_base_not_applied :
    rB.fkine [] = some ((1 : Mat4) * rB.tool) ∧
      rB.fkine [] ≠ some (rB.base * chainProd rB.ets [] * rB.tool) := by
  refine ⟨rfl, ?_⟩
  intro hc
  have hclaim : rB.base * chainProd rB.ets [] * rB.tool = axisT Axis.Tx 1 := by
    show axisT Axis.Tx 1 * chainProd [] [] * 1 = axisT Axis.Tx 1
    simp [chainProd]
  have hcode : rB.fkine [] = some ((1 : Mat4)) := by
    show some ((1 : Mat4) * 1) = some 1
    rw [mul_one]
  rw [hcode, hclaim] at hc
  have h2 : (1 : Mat4) = axisT Axis.Tx 1 := Option.some.inj hc
  have h3 : (1 : Mat4) 0 3 = axisT Axis.Tx 1 0 3 := by rw [← h2]
  have hL : (1 : Mat4) 0 3 = (0 : ℝ) := rfl
  have hR : axisT Axis.Tx 1 0 3 = (1 : ℝ) := rfl
  rw [hL, hR] at h3
  norm_num at h3

/-- C7: the source's `fkine` performs no length check on `q`: on the one-joint
chain `rA` and a `q` of length 2 it silently ignores the extra entry and
returns a pose instead of reporting an invalid-argument error.  (For `q`
shorter than `n` it fails with an out-of-range read partway through the
computation, which is a crash, not an eager invalid-argument report.) -/
theorem fkine_accepts_mismatched_q :
    [(3 : ℝ)/10, 1/2].length ≠ rA.n ∧
      (rA.fkine [(3 : ℝ)/10, 1/2]).isSome = true ∧
      rA.fkine [(3 : ℝ)/10, 1/2] = rA.fkine [(3 : ℝ)/10] := by
  refine ⟨by decide, rfl, rfl⟩

/-- Hessian tensors `H : 6 × n × n`, indexed as in `H[a, b, c]`. -/
abbrev HessT := Fin 6 → ℕ → ℕ → ℝ

/-- Componentwise cross product of two 3-vectors (`np.cross`). -/
def cross3 (u v : Fin 3 → ℝ) : Fin 3 → ℝ :=
  ![u 1 * v 2 - u 2 * v 1, u 2 * v 0 - u 0 * v 2, u 0 * v 1 - u 1 * v 0]

/-- Rows 0–2 of column `i` of a Jacobian (`J[:3, i]`). -/
def Jlin (J : Fin 6 → ℕ → ℝ) (i : ℕ) : Fin 3 → ℝ :=
  fun a => J ⟨a.val, by have := a.isLt; omega⟩ i

/-- Rows 3–5 of column `i` of a Jacobian (`J[3:, i]`). -/
def Jang (J : Fin 6 → ℕ → ℝ) (i : ℕ) : Fin 3 → ℝ :=
  fun a => J ⟨a.val + 3, by have := a.isLt; omega⟩ i

/-- Write `H[:3, i, j] = v`. -/
def writeTr (H : HessT) (i j : ℕ) (v : Fin 3 → ℝ) : HessT :=
  fun a b c =>
    if h : a.val < 3 then
      if b = i ∧ c = j then v ⟨a.val, h⟩ else H a b c
    else H a b c

/-- Write `H[3:, i, j] = v`. -/
def writeAng (H : HessT) (i j : ℕ) (v : Fin 3 → ℝ) : HessT :=
  fun a b c =>
    if a.val < 3 then H a b c
    else if b = i ∧ c = j then v ⟨a.val - 3, by have := a.isLt; omega⟩
    else H a b c

/-- One body of the double loop of `hessian0` at outer index `jj` and inner
index `i`: write `H[:3,i,jj]` and `H[3:,i,jj]` from cross products of the
Jacobian columns (giving the intermediate tensor `H2`), then, when `i ≠ jj`,
mirror the just-written translational block into `H[:3,jj,i]`. -/
def hessUpd (J : Fin 6 → ℕ → ℝ) (jj : ℕ) (H : HessT) (i : ℕ) : HessT :=
  if i ≠ jj then
    writeTr
      (writeAng (writeTr H i jj (cross3 (Jang J jj) (Jlin J i))) i jj
        (cross3 (Jang J jj) (Jang J i)))
      jj i
      (fun a =>
        writeAng (writeTr H i jj (cross3 (Jang J jj) (Jlin J i))) i jj
          (cross3 (Jang J jj) (Jang J i))
          ⟨a.val, by have := a.isLt; omega⟩ i jj)
  else
    writeAng (writeTr H i jj (cross3 (Jang J jj) (Jlin J i))) i jj
      (cross3 (Jang J jj) (Jang J i))

/-- The inner loop of `hessian0` at outer index `jj`:
`for i in range(jj, n)`. -/
def hessOuter (n : ℕ) (J : Fin 6 → ℕ → ℝ) (H : HessT) (jj : ℕ) : HessT :=
  (List.range' jj (n - jj)).foldl (hessUpd J jj) H

/-- The double loop of `hessian0`: `for j in range(n): for i in range(j, n)`,
starting from the zero tensor. -/
def hessianCore (n : ℕ) (J : Fin 6 → ℕ → ℝ) : HessT :=
  (List.range n).foldl (hessOuter n J) (fun _ _ _ => 0)

/-- `ETS.hessian0(q, J=None)`: uses the supplied Jacobian, or computes it via
`jacob0` when omitted. -/
noncomputable def ETS.hessian0 (r : ETS) (q : List ℝ)
    (Jo : Option (Fin 6 → ℕ → ℝ)) : Option HessT :=
  match Jo with
  | some J => some (hessianCore r.n J)
  | none => (r.jacob0 q).map (fun J => hessianCore r.n J)

lemma writeTr_miss_idx {H : HessT} {i j : ℕ} {v : Fin 3 → ℝ} {a : Fin 6}
    {b c : ℕ} (h1 : ¬(b = i ∧ c = j)) : writeTr H i j v a b c = H a b c := by
  unfold writeTr
  by_cases ha : a.val < 3
  · rw [dif_pos ha, if_neg h1]
  · rw [dif_neg ha]

lemma writeTr_miss_row {H : HessT} {i j : ℕ} {v : Fin 3 → ℝ} {a : Fin 6}
    {b c : ℕ} (ha : ¬ a.val < 3) : writeTr H i j v a b c = H a b c := by
  unfold writeTr
  rw [dif_neg ha]

lemma writeTr_hit {H : HessT} {i j : ℕ} {v : Fin 3 → ℝ} {a : Fin 6}
    (ha : a.val < 3) : writeTr H i j v a i j = v ⟨a.val, ha⟩ := by
  unfold writeTr
  rw [dif_pos ha, if_pos ⟨rfl, rfl⟩]

lemma writeAng_miss_idx {H : HessT} {i j : ℕ} {v : Fin 3 → ℝ} {a : Fin 6}
    {b c : ℕ} (h1 : ¬(b = i ∧ c = j)) : writeAng H i j v a b c = H a b c := by
  unfold writeAng
  by_cases ha : a.val < 3
  · rw [if_pos ha]
  · rw [if_neg ha, if_neg h1]

lemma writeAng_miss_row {H : HessT} {i j : ℕ} {v : Fin 3 → ℝ} {a : Fin 6}
    {b c : ℕ} (ha : a.val < 3) : writeAng H i j v a b c = H a b c := by
  unfold writeAng
  rw [if_pos ha]

lemma writeAng_hit {H : HessT} {i j : ℕ} {v : Fin 3 → ℝ} {a : Fin 6}
    (ha : ¬ a.val < 3) :
    writeAng H i j v a i j = v ⟨a.val - 3, by have := a.isLt; omega⟩ := by
  unfold writeAng
  rw [if_neg ha, if_pos ⟨rfl, rfl⟩]

lemma hessUpd_untouched (J : Fin 6 → ℕ → ℝ) (jj : ℕ) (H : HessT) (i : ℕ)
    (a : Fin 6) (b c : ℕ) (h1 : ¬(b = i ∧ c = jj))
    (h2 : a.val < 3 → ¬(b = jj ∧ c = i)) :
    hessUpd J jj H i a b c = H a b c := by
  unfold hessUpd
  by_cases ha : a.val < 3
  · by_cases hij : i ≠ jj
    · rw [if_pos hij, writeTr_miss_idx (h2 ha), writeAng_miss_row ha,
        writeTr_miss_idx h1]
    · rw [if_neg hij, writeAng_miss_row ha, writeTr_miss_idx h1]
  · by_cases hij : i ≠ jj
    · rw [if_pos hij, writeTr_miss_row ha, writeAng_miss_idx h1,
        writeTr_miss_row ha]
    · rw [if_neg hij, writeAng_miss_idx h1, writeTr_miss_row ha]

lemma hessUpd_writes_tr (J : Fin 6 → ℕ → ℝ) (jj : ℕ) (H : HessT) (i : ℕ)
    (a : Fin 6) (ha : a.val < 3) :
    hessUpd J jj H i a i jj = cross3 (Jang J jj) (Jlin J i) ⟨a.val, ha⟩ := by
  unfold hessUpd
  by_cases hij : i ≠ jj
  · rw [if_pos hij,
      writeTr_miss_idx (fun hc : i = jj ∧ jj = i => hij hc.1),
      writeAng_miss_row ha, writeTr_hit ha]
  · rw [if_neg hij, writeAng_miss_row ha, writeTr_hit ha]

lemma hessUpd_writes_ang (J : Fin 6 → ℕ → ℝ) (jj : ℕ) (H : HessT) (i : ℕ)
    (a : Fin 6) (ha : ¬ a.val < 3) :
    hessUpd J jj H i a i jj =
      cross3 (Jang J jj) (Jang J i) ⟨a.val - 3, by have := a.isLt; omega⟩ := by
  unfold hessUpd
  by_cases hij : i ≠ jj
  · rw [if_pos hij, writeTr_miss_row ha, writeAng_hit ha]
  · rw [if_neg hij, writeAng_hit ha]

lemma hessUpd_writes_mirror (J : Fin 6 → ℕ → ℝ) (jj : ℕ) (H : HessT) (i : ℕ)
    (a : Fin 6) (hij : i ≠ jj) (ha : a.val < 3) :
    hessUpd J jj H i a jj i = cross3 (Jang J jj) (Jlin J i) ⟨a.val, ha⟩ := by
  unfold hessUpd
  rw [if_pos hij, writeTr_hit ha]
  rw [writeAng_miss_row ha, writeTr_hit ha]

lemma mem_range1 {x s len : ℕ} (h : x ∈ List.range' s len) :
    s ≤ x ∧ x < s + len := by
  rw [List.mem_range'] at h
  obtain ⟨i, hi, rfl⟩ := h
  omega

lemma range'_split (s len mid : ℕ) (h1 : s ≤ mid) (h2 : mid ≤ s + len) :
    List.range' s len =
      List.range' s (mid - s) ++ List.range' mid (s + len - mid) := by
  have h := List.range'_append_1 s (mid - s) (s + len - mid)
  rw [show s + (mid - s) = mid from by omega] at h
  rw [show s + len - mid + (mid - s) = len from by omega] at h
  exact h.symm

lemma foldl_hessUpd_untouched (J : Fin 6 → ℕ → ℝ) (jj : ℕ) (a : Fin 6)
    (b c : ℕ) (L : List ℕ) (H : HessT)
    (h : ∀ i ∈ L, ¬(b = i ∧ c = jj) ∧ (a.val < 3 → ¬(b = jj ∧ c = i))) :
    L.foldl (hessUpd J jj) H a b c = H a b c := by
  induction L generalizing H with
  | nil => rfl
  | cons i L' ih =>
    rw [List.foldl_cons, ih _ (fun i' hi' => h i' (List.mem_cons_of_mem _ hi'))]
    exact hessUpd_untouched J jj H i a b c (h i (by simp)).1 (h i (by simp)).2

lemma foldl_hessOuter_untouched (n : ℕ) (J : Fin 6 → ℕ → ℝ) (a : Fin 6)
    (b c : ℕ) (L : List ℕ) (H : HessT)
    (h : ∀ jj ∈ L, ∀ i ∈ List.range' jj (n - jj),
      ¬(b = i ∧ c = jj) ∧ (a.val < 3 → ¬(b = jj ∧ c = i))) :
    L.foldl (hessOuter n J) H a b c = H a b c := by
  induction L generalizing H with
  | nil => rfl
  | cons jj L' ih =>
    rw [List.foldl_cons, ih _ (fun j' hj' => h j' (List.mem_cons_of_mem _ hj'))]
    exact foldl_hessUpd_untouched J jj a b c _ H
      (fun i hi => h jj (by simp) i hi)

/-- Value of a cell of the Hessian tensor on or below the diagonal
(`c ≤ b < n`): it equals whatever the `(i, j) = (b, c)` loop body writes
there, independently of the incoming tensor. -/
lemma hessianCore_direct (n : ℕ) (J : Fin 6 → ℕ → ℝ) (b c : ℕ) (hc : c ≤ b)
    (hb : b < n) (a : Fin 6) :
    hessianCore n J a b c = hessUpd J c (fun _ _ _ => 0) b a b c := by
  have hcn : c < n := lt_of_le_of_lt hc hb
  unfold hessianCore
  rw [List.range_eq_range',
    range'_split 0 n c (Nat.zero_le c) (by omega), List.foldl_append]
  obtain ⟨k, hk⟩ : ∃ k, 0 + n - c = k + 1 := ⟨n - c - 1, by omega⟩
  rw [hk, List.range'_succ, List.foldl_cons]
  rw [foldl_hessOuter_untouched n J a b c _ _ (by
    intro jj hjj i hi
    have hjj' := mem_range1 hjj
    have hi' := mem_range1 hi
    constructor
    · rintro ⟨hx1, hx2⟩; omega
    · intro _
      rintro ⟨hx1, hx2⟩
      omega)]
  unfold hessOuter
  rw [range'_split c (n - c) b hc (by omega), List.foldl_append]
  obtain ⟨m, hm⟩ : ∃ m, c + (n - c) - b = m + 1 := ⟨n - b - 1, by omega⟩
  rw [hm, List.range'_succ, List.foldl_cons]
  rw [foldl_hessUpd_untouched J c a b c _ _ (by
    intro i hi
    have hi' := mem_range1 hi
    constructor
    · rintro ⟨hx1, hx2⟩; omega
    · intro _
      rintro ⟨hx1, hx2⟩
      omega)]
  by_cases ha : a.val < 3
  · rw [hessUpd_writes_tr _ _ _ _ _ ha, hessUpd_writes_tr _ _ _ _ _ ha]
  · rw [hessUpd_writes_ang _ _ _ _ _ ha, hessUpd_writes_ang _ _ _ _ _ ha]

/-- Value of a translational cell strictly above the diagonal
(`b < c < n`): the mirror write from the `(i, j) = (c, b)` loop body. -/
lemma hessianCore_mirror (n : ℕ) (J : Fin 6 → ℕ → ℝ) (b c : ℕ) (hbc : b < c)
    (hcn : c < n) (a : Fin 6) (ha : a.val < 3) :
    hessianCore n J a b c = cross3 (Jang J b) (Jlin J c) ⟨a.val, ha⟩ := by
  unfold hessianCore
  rw [List.range_eq_range',
    range'_split 0 n b (Nat.zero_le b) (by omega), List.foldl_append]
  obtain ⟨k, hk⟩ : ∃ k, 0 + n - b = k + 1 := ⟨n - b - 1, by omega⟩
  rw [hk, List.range'_succ, List.foldl_cons]
  rw [foldl_hessOuter_untouched n J a b c _ _ (by
    intro jj hjj i hi
    have hjj' := mem_range1 hjj
    have hi' := mem_range1 hi
    constructor
    · rintro ⟨hx1, hx2⟩; omega
    · intro _
      rintro ⟨hx1, hx2⟩
      omega)]
  unfold hessOuter
  rw [range'_split b (n - b) c (le_of_lt hbc) (by omega), List.foldl_append]
  obtain ⟨m, hm⟩ : ∃ m, b + (n - b) - c = m + 1 := ⟨n - c - 1, by omega⟩
  rw [hm, List.range'_succ, List.foldl_cons]
  rw [foldl_hessUpd_untouched J b a b c _ _ (by
    intro i hi
    have hi' := mem_range1 hi
    constructor
    · rintro ⟨hx1, hx2⟩; omega
    · intro _
      rintro ⟨hx1, hx2⟩
      omega)]
  exact hessUpd_writes_mirror J b _ c a (by omega) ha

/-- An angular cell strictly above the diagonal (`b < c`) is never written
and keeps its zero initialisation. -/
lemma hessianCore_ang_upper (n : ℕ) (J : Fin 6 → ℕ → ℝ) (b c : ℕ)
    (hbc : b < c) (a : Fin 6) (ha : ¬ a.val < 3) :
    hessianCore n J a b c = 0 := by
  unfold hessianCore
  rw [foldl_hessOuter_untouched n J a b c _ _ (by
    intro jj hjj i hi
    have hi' := mem_range1 hi
    constructor
    · rintro ⟨hx1, hx2⟩; omega
    · intro h3
      exact absurd h3 ha)]

/-- Embedding of a row index of the translational block (`H[:3]`). -/
def low3 (a : Fin 3) : Fin 6 := ⟨a.val, by have := a.isLt; omega⟩

/-- Embedding of a row index of the angular block (`H[3:]`). -/
def high3 (a : Fin 3) : Fin 6 := ⟨a.val + 3, by have := a.isLt; omega⟩

/-- C3: `hessian0` with a supplied Jacobian returns the `6 × n × n` tensor in
which, for every pair of joint indices `(i, j)` with `j ≤ i < n`,
`H[:3,i,j] = J[3:,j] × J[:3,i]` and `H[3:,i,j] = J[3:,j] × J[3:,i]`; for
`j < i` the translational block is mirrored (`H[:3,j,i] = H[:3,i,j]`) but the
angular block is not — `H[3:,j,i]` keeps its zero initialisation. -/
theorem hessian_entries (r : ETS) (q : List ℝ) (J : Fin 6 → ℕ → ℝ)
    (i j : ℕ) (hj : j ≤ i) (hi : i < r.n) :
    r.hessian0 q (some J) = some (hessianCore r.n J) ∧
    (∀ a : Fin 3,
      hessianCore r.n J (low3 a) i j = cross3 (Jang J j) (Jlin J i) a) ∧
    (∀ a : Fin 3,
      hessianCore r.n J (high3 a) i j = cross3 (Jang J j) (Jang J i) a) ∧
    (j < i →
      (∀ a : Fin 3,
        hessianCore r.n J (low3 a) j i = hessianCore r.n J (low3 a) i j) ∧
      (∀ a : Fin 3, hessianCore r.n J (high3 a) j i = 0)) := by
  refine ⟨rfl, ?_, ?_, ?_⟩
  · intro a
    rw [hessianCore_direct r.n J i j hj hi (low3 a)]
    exact hessUpd_writes_tr J j _ i (low3 a) a.isLt
  · intro a
    rw [hessianCore_direct r.n J i j hj hi (high3 a)]
    exact hessUpd_writes_ang J j _ i (high3 a) (by
      show ¬ a.val + 3 < 3
      omega)
  · intro hji
    constructor
    · intro a
      rw [hessianCore_mirror r.n J j i hji hi (low3 a) a.isLt,
        hessianCore_direct r.n J i j hj hi (low3 a),
        hessUpd_writes_tr J j _ i (low3 a) a.isLt]
    · intro a
      exact hessianCore_ang_upper r.n J j i hji (high3 a) (by
        show ¬ a.val + 3 < 3
        omega)

theorem hessian_entries_witness :
    ((0 : ℕ) ≤ 1 ∧ 1 < rG.n) ∧
    (rG.hessian0 [0, 0] (some (fun _ _ => 1)) =
        some (hessianCore rG.n (fun _ _ => 1)) ∧
      (∀ a : Fin 3,
        hessianCore rG.n (fun _ _ => 1) (low3 a) 1 0 =
          cross3 (Jang (fun _ _ => 1) 0) (Jlin (fun _ _ => 1) 1) a) ∧
      (∀ a : Fin 3,
        hessianCore rG.n (fun _ _ => 1) (high3 a) 1 0 =
          cross3 (Jang (fun _ _ => 1) 0) (Jang (fun _ _ => 1) 1) a) ∧
      ((0 : ℕ) < 1 →
        (∀ a : Fin 3,
          hessianCore rG.n (fun _ _ => 1) (low3 a) 0 1 =
            hessianCore rG.n (fun _ _ => 1) (low3 a) 1 0) ∧
        (∀ a : Fin 3,
          hessianCore rG.n (fun _ _ => 1) (high3 a) 0 1 = 0))) :=
  ⟨⟨by decide, by decide⟩,
    hessian_entries rG [0, 0] (fun _ _ => 1) 1 0 (by decide) (by decide)⟩

/-- `J @ J.T` for a Jacobian with `n` columns (`np` sums over the columns). -/
def mulJJT (n : ℕ) (J : Fin 6 → ℕ → ℝ) : Matrix (Fin 6) (Fin 6) ℝ :=
  fun a b => ∑ k in Finset.range n, J a k * J b k

/-- The `6 × n` matrix view of a column-function Jacobian. -/
def toMat (n : ℕ) (J : Fin 6 → ℕ → ℝ) : Matrix (Fin 6) (Fin n) ℝ :=
  fun a b => J a b.val

/-- `ETS.manipulability(q, J=None)`: Yoshikawa's index
`sqrt(det(J @ J.T))`, with `J` computed via `jacob0` when omitted. -/
noncomputable def ETS.manipulability (r : ETS) (q : List ℝ)
    (Jo : Option (Fin 6 → ℕ → ℝ)) : Option ℝ :=
  match Jo with
  | some J => some (Real.sqrt (mulJJT r.n J).det)
  | none => (r.jacob0 q).map (fun J => Real.sqrt (mulJJT r.n J).det)

lemma mulJJT_eq (n : ℕ) (J : Fin 6 → ℕ → ℝ) :
    mulJJT n J = toMat n J * (toMat n J)ᵀ := by
  ext a b
  rw [Matrix.mul_apply]
  show ∑ k in Finset.range n, J a k * J b k = _
  rw [Finset.sum_range (fun k => J a k * J b k)]
  rfl

/-- C4: `manipulability` with a supplied (or `jacob0`-computed) Jacobian
returns `sqrt(det(J·Jᵀ))`; the value is a scalar `≥ 0`; and a rank-deficient
`J` yields the valid value `0`, not an error. -/
theorem manipulability_spec (r : ETS) (q : List ℝ) (J : Fin 6 → ℕ → ℝ) :
    r.manipulability q (some J) =
      some (Real.sqrt ((toMat r.n J * (toMat r.n J)ᵀ).det)) ∧
    0 ≤ Real.sqrt ((toMat r.n J * (toMat r.n J)ᵀ).det) ∧
    ((toMat r.n J).rank < 6 → r.manipulability q (some J) = some 0) ∧
    (r.jacob0 q = some J →
      r.manipulability q none = r.manipulability q (some J)) := by
  refine ⟨?_, Real.sqrt_nonneg _, ?_, ?_⟩
  · show some (Real.sqrt (mulJJT r.n J).det) = _
    rw [mulJJT_eq]
  · intro hrank
    have hdet : (toMat r.n J * (toMat r.n J)ᵀ).det = 0 := by
      by_contra hne
      have hu : IsUnit (toMat r.n J * (toMat r.n J)ᵀ) :=
        (Matrix.isUnit_iff_isUnit_det _).mpr (isUnit_iff_ne_zero.mpr hne)
      have h6 : (toMat r.n J * (toMat r.n J)ᵀ).rank = 6 := by
        rw [Matrix.rank_of_isUnit _ hu]
        simp
      rw [Matrix.rank_self_mul_transpose] at h6
      omega
    show some (Real.sqrt (mulJJT r.n J).det) = some 0
    rw [mulJJT_eq, hdet, Real.sqrt_zero]
  · intro hj
    show Option.map _ (r.jacob0 q) = _
    rw [hj]
    rfl

theorem manipulability_spec_witness :
    (toMat rA.n (fun _ _ => 0)).rank < 6 ∧
    rA.manipulability [0] (some (fun _ _ => 0)) = some 0 := by
  have hr : (toMat rA.n (fun _ _ => 0)).rank < 6 := by
    have h := Matrix.rank_le_card_width (toMat rA.n (fun _ _ => 0))
    have h2 : Fintype.card (Fin rA.n) = 1 := by decide
    omega
  exact ⟨hr, (manipulability_spec rA [0] (fun _ _ => 0)).2.2.1 hr⟩

/-- Column-major (`order='F'`) flattening of a 6×6 matrix:
entry `k` is `M[k % 6, k / 6]`. -/
def flat36 (M : Matrix (Fin 6) (Fin 6) ℝ) : Fin 36 → ℝ :=
  fun k =>
    M ⟨k.val % 6, Nat.mod_lt _ (by norm_num)⟩ ⟨k.val / 6, by have := k.isLt; omega⟩

/-- Dot product of two 36-vectors. -/
def dotV (u v : Fin 36 → ℝ) : ℝ := ∑ k, u k * v k

/-- `c = J @ np.transpose(H[:, :, i])`: the 6×6 matrix with
`c[a, b] = Σ_k J[a, k] · H[b, k, i]`. -/
def cmatC5 (n : ℕ) (J : Fin 6 → ℕ → ℝ) (H : HessT) (i : ℕ) :
    Matrix (Fin 6) (Fin 6) ℝ :=
  fun a b => ∑ k in Finset.range n, J a k * H b k i

open scoped Classical in
/-- `ETS.jacobm(q, J=None, H=None, manipulability=None)`: defaults are filled
in source order (manipulability, then `J`, then `H`, each computed from `q`
via the corresponding method when omitted); then `b = inv(J @ J.T)` (`none`
models the `LinAlgError` numpy raises on a singular operand) and entry `i`
is `manipulability · (flatten(c,'F') ⬝ flatten(b,'F'))` with
the singularity test decided classically, and
`c = J @ H[:,:,i].T`. -/
noncomputable def ETS.jacobm (r : ETS) (q : List ℝ)
    (Jo : Option (Fin 6 → ℕ → ℝ)) (Ho : Option HessT) (mo : Option ℝ) :
    Option (ℕ → ℝ) :=
  match (match mo with
         | some m => some m
         | none => r.manipulability q none) with
  | none => none
  | some m =>
    match (match Jo with
           | some J => some J
           | none => r.jacob0 q) with
    | none => none
    | some J =>
      match (match Ho with
             | some H => some H
             | none => r.hessian0 q none) with
      | none => none
      | some H =>
        if (mulJJT r.n J).det = 0 then none
        else
          some (fun i =>
            if i < r.n then
              m * dotV (flat36 (cmatC5 r.n J H i))
                (flat36 ((mulJJT r.n J)⁻¹))
            else 0)

/-- The gradient-entry formula as the claim states it, under the only
dimension-consistent reading of `B·flatten(C)` — namely `flatten(B·C)`:
`m · (flatten(C) ⬝ flatten(B·C))` with `B = (J·Jᵀ)⁻¹` and `C = J·Hᵢᵀ`.
(`B` is 6×6 while `flatten(C)` has 36 entries, so `B·flatten(C)` read
literally is ill-typed.) -/
noncomputable def claimC5entry (n : ℕ) (J : Fin 6 → ℕ → ℝ) (H : HessT)
    (m : ℝ) (i : ℕ) : ℝ :=
  m * dotV (flat36 (cmatC5 n J H i))
    (flat36 ((mulJJT n J)⁻¹ * cmatC5 n J H i))

lemma dotV_flat36 (A B : Matrix (Fin 6) (Fin 6) ℝ) :
    dotV (flat36 A) (flat36 B) = ∑ a : Fin 6, ∑ b : Fin 6, A a b * B a b := by
  unfold dotV
  have hstep : (∑ k : Fin 36, flat36 A k * flat36 B k) =
      ∑ p : Fin 6 × Fin 6, A p.1 p.2 * B p.1 p.2 := by
    refine (Fintype.sum_bijective
      (fun p : Fin 6 × Fin 6 =>
        (⟨p.2.val * 6 + p.1.val, by have := p.1.isLt; have := p.2.isLt; omega⟩ :
          Fin 36))
      (by decide)
      (fun p => A p.1 p.2 * B p.1 p.2)
      (fun k => flat36 A k * flat36 B k)
      ?_).symm
    intro p
    have h1 : (p.2.val * 6 + p.1.val) % 6 = p.1.val := by
      have := p.1.isLt
      omega
    have h2 : (p.2.val * 6 + p.1.val) / 6 = p.2.val := by
      have := p.1.isLt
      omega
    unfold flat36
    simp only [h1, h2, Fin.eta]
  rw [hstep, Fintype.sum_prod_type]

/-- C5 (amended): with `J·Jᵀ` invertible, entry `i` of `jacobm` is
`m · (flatten(C) ⬝ flatten(B))` — both flattens column-major — where
`C = J·Hᵢᵀ` and `B = (J·Jᵀ)⁻¹`; and omitted arguments are computed
internally via `jacob0`, `hessian0` and `manipulability` on the same `q`,
giving the same result as passing those values explicitly. -/
theorem jacobm_entries (r : ETS) (q : List ℝ) (J : Fin 6 → ℕ → ℝ)
    (H : HessT) (m : ℝ) (hdet : (mulJJT r.n J).det ≠ 0) :
    r.jacobm q (some J) (some H) (some m) =
      some (fun i =>
        if i < r.n then
          m * dotV (flat36 (cmatC5 r.n J H i)) (flat36 ((mulJJT r.n J)⁻¹))
        else 0) ∧
    (∀ J0 H0 m0, r.jacob0 q = some J0 → r.hessian0 q none = some H0 →
      r.manipulability q none = some m0 →
      r.jacobm q none none none =
        r.jacobm q (some J0) (some H0) (some m0)) := by
  constructor
  · unfold ETS.jacobm
    dsimp only
    rw [if_neg hdet]
  · intro J0 H0 m0 hJ hH hm
    unfold ETS.jacobm
    dsimp only
    rw [hm]
    dsimp only
    rw [hJ]
    dsimp only
    rw [hH]

/-- Concrete chain with six revolute-about-z joints (so `n = 6`). -/
def rH : ETS :=
  ⟨[⟨Axis.Rz, ETKind.joint⟩, ⟨Axis.Rz, ETKind.joint⟩, ⟨Axis.Rz, ETKind.joint⟩,
    ⟨Axis.Rz, ETKind.joint⟩, ⟨Axis.Rz, ETKind.joint⟩, ⟨Axis.Rz, ETKind.joint⟩],
    [0, 1, 2, 3, 4, 5], "noname", "", 1, 1, [0, 0, 0, 0, 0, 0]⟩

/-- A caller-supplied Jacobian whose first six columns form the identity. -/
def Jid : Fin 6 → ℕ → ℝ := fun a k => if a.val = k then 1 else 0

/-- A caller-supplied Hessian tensor with a single nonzero entry
`H[0, 0, 0] = 2`. -/
def Hc : HessT := fun a b c => if a.val = 0 ∧ b = 0 ∧ c = 0 then 2 else 0

lemma mulJJT_Jid : mulJJT 6 Jid = 1 := by
  ext a b
  show (∑ k in Finset.range 6, Jid a k * Jid b k) = _
  rw [Matrix.one_apply]
  fin_cases a <;> fin_cases b <;>
    simp [Jid, Finset.sum_range_succ]

lemma cmat_eval : cmatC5 6 Jid Hc 0 =
    fun a b => if b.val = 0 ∧ a.val = 0 then (2 : ℝ) else 0 := by
  funext a b
  show (∑ k in Finset.range 6, Jid a k * Hc b k 0) = _
  fin_cases a <;> fin_cases b <;>
    simp [Jid, Hc, Finset.sum_range_succ]

lemma dcode_eval :
    dotV (flat36 (cmatC5 6 Jid Hc 0)) (flat36 ((mulJJT 6 Jid)⁻¹)) = 2 := by
  rw [mulJJT_Jid, inv_one, cmat_eval, dotV_flat36]
  simp +decide [Matrix.one_apply, Fin.sum_univ_six]

lemma dclaim_eval :
    dotV (flat36 (cmatC5 6 Jid Hc 0))
      (flat36 ((mulJJT 6 Jid)⁻¹ * cmatC5 6 Jid Hc 0)) = 4 := by
  rw [mulJJT_Jid, inv_one, one_mul, cmat_eval, dotV_flat36]
  simp +decide [Fin.sum_univ_six]
  norm_num

theorem jacobm_entries_witness :
    (mulJJT rH.n Jid).det ≠ 0 ∧
    rH.jacobm [0, 0, 0, 0, 0, 0] (some Jid) (some Hc) (some 1) =
      some (fun i =>
        if i < rH.n then
          1 * dotV (flat36 (cmatC5 rH.n Jid Hc i))
            (flat36 ((mulJJT rH.n Jid)⁻¹))
        else 0) := by
  have hdet : (mulJJT rH.n Jid).det ≠ 0 := by
    have hn : rH.n = 6 := rfl
    rw [hn, mulJJT_Jid, Matrix.det_one]
    norm_num
  exact ⟨hdet, (jacobm_entries rH [0, 0, 0, 0, 0, 0] Jid Hc 1 hdet).1⟩

/-- C5 counterexample: at the six-joint chain `rH` with the caller-supplied
`J = Jid`, `H = Hc`, `m = 1`, the code's gradient entry 0 is `2`
(`flatten(C) ⬝ flatten(B)`), while the claim's stated formula
`m · (flatten(C) ⬝ B·flatten(C))` evaluates to `4`. -/
theorem jacobm_formula_counterexample :
    (rH.jacobm [0, 0, 0, 0, 0, 0] (some Jid) (some Hc) (some 1)).map
        (fun v => v 0) = some 2 ∧
      claimC5entry rH.n Jid Hc 1 0 = 4 ∧ (2 : ℝ) ≠ 4 := by
  have hn : rH.n = 6 := rfl
  refine ⟨?_, ?_, by norm_num⟩
  · have hdet : ¬ (mulJJT rH.n Jid).det = 0 := by
      rw [hn, mulJJT_Jid, Matrix.det_one]
      norm_num
    unfold ETS.jacobm
    dsimp only
    rw [if_neg hdet]
    show some (if 0 < rH.n then
      1 * dotV (flat36 (cmatC5 rH.n Jid Hc 0))
        (flat36 ((mulJJT rH.n Jid)⁻¹)) else 0) = some 2
    rw [if_pos (by decide), hn, dcode_eval, one_mul]
  · unfold claimC5entry
    rw [hn, dclaim_eval, one_mul]

/-- State-passing translation of the `fkine` method.  The method body in
`ets.py` contains no assignment to any attribute of `self`, so the faithful
translation returns the receiver unchanged alongside the result. -/
noncomputable def ETS.fkineS (r : ETS) (q : List ℝ) : Option Mat4 × ETS :=
  (r.fkine q, r)

/-- State-passing translation of `jacob0` (no attribute of `self` is
assigned by the method body). -/
noncomputable def ETS.jacob0S (r : ETS) (q : List ℝ) :
    Option (Fin 6 → ℕ → ℝ) × ETS :=
  (r.jacob0 q, r)

/-- State-passing translation of `hessian0` (no attribute of `self` is
assigned by the method body). -/
noncomputable def ETS.hessian0S (r : ETS) (q : List ℝ)
    (Jo : Option (Fin 6 → ℕ → ℝ)) : Option HessT × ETS :=
  (r.hessian0 q Jo, r)

/-- State-passing translation of `manipulability` (no attribute of `self`
is assigned by the method body). -/
noncomputable def ETS.manipulabilityS (r : ETS) (q : List ℝ)
    (Jo : Option (Fin 6 → ℕ → ℝ)) : Option ℝ × ETS :=
  (r.manipulability q Jo, r)

/-- State-passing translation of `jacobm` (no attribute of `self` is
assigned by the method body). -/
noncomputable def ETS.jacobmS (r : ETS) (q : List ℝ)
    (Jo : Option (Fin 6 → ℕ → ℝ)) (Ho : Option HessT) (mo : Option ℝ) :
    Option (ℕ → ℝ) × ETS :=
  (r.jacobm q Jo Ho mo, r)

/-- C9: every public operation is a pure function of the chain and its
explicit arguments — it leaves every field of the chain (elements,
joint_index, base, tool, name, manufacturer and the stored joint-vector
field) unchanged, and a call made after any interleaved call returns the
same result as one made directly. -/
theorem operations_pure (r : ETS) (q q2 : List ℝ)
    (Jo : Option (Fin 6 → ℕ → ℝ)) (Ho : Option HessT) (mo : Option ℝ) :
    ((r.fkineS q).2 = r ∧ (r.jacob0S q).2 = r ∧ (r.hessian0S q Jo).2 = r ∧
      (r.manipulabilityS q Jo).2 = r ∧ (r.jacobmS q Jo Ho mo).2 = r) ∧
    ((r.fkineS q).2.ets = r.ets ∧ (r.fkineS q).2.q_idx = r.q_idx ∧
      (r.fkineS q).2.base = r.base ∧ (r.fkineS q).2.tool = r.tool ∧
      (r.fkineS q).2.name = r.name ∧ (r.fkineS q).2.manuf = r.manuf ∧
      (r.fkineS q).2.q_stored = r.q_stored) ∧
    (((r.jacob0S q2).2.fkineS q).1 = (r.fkineS q).1 ∧
      ((r.fkineS q2).2.jacob0S q).1 = (r.jacob0S q).1 ∧
      ((r.jacobmS q2 Jo Ho mo).2.manipulabilityS q Jo).1 =
        (r.manipulabilityS q Jo).1) :=
  ⟨⟨rfl, rfl, rfl, rfl, rfl⟩, ⟨rfl, rfl, rfl, rfl, rfl, rfl, rfl⟩,
    ⟨rfl, rfl, rfl⟩⟩

end RTB
